import Mathlib

set_option maxRecDepth 400000

/-
Shallow embedding of the Nginx configuration reconciliation engine of
iiitkota-docker-manager, src/src/index.ts:
  - parseNginxConfig          (lines 88-113): regex based block extraction,
  - createNginxServerBlock    (lines 115-143): block renderer,
  - the Nginx section of the POST /start-compose handler (lines 1206-1239):
    the reconciler (find block by old host port, replace / append / remove),
  - the POST /nginx/update-config-stream handler (lines 1252-1304):
    the backup - write - test - reload / restore apply pipeline.

The JavaScript regexes are modelled at the character-list level with the
exact scanning, laziness and backtracking semantics of the source patterns:
  serverRegex        = server backslash-s star, left brace, lazy any star, right brace (global),
  serverNameRegex    = server_name backslash-s plus, capture of non-semicolon plus, semicolon,
  proxyPassRegex     = proxy_pass backslash-s plus http://localhost: capture of digit plus, semicolon,
  clientMaxBodyRegex = client_max_body_size backslash-s plus, capture of non-semicolon plus, semicolon.
Effectful code (file system, child processes) is embedded as pure functions
over explicit state, with subprocess results supplied as oracle inputs.
-/

/-- Left brace character, written via its code point so that string literals
in this file stay free of brace characters. -/
def braceL : Char := Char.ofNat 123

/-- Right brace character. -/
def braceR : Char := Char.ofNat 125

/-- ASCII part of the JavaScript regex whitespace class (space, tab, newline,
carriage return, vertical tab, form feed).  All configuration text handled by
the source is ASCII. -/
def isWsChar (c : Char) : Bool :=
  c == ' ' || c == '\t' || c == '\n' || c == '\r' || c == Char.ofNat 11 || c == Char.ofNat 12

/-- Line terminator class of the regex character class [carriage-return newline]. -/
def isTermChar (c : Char) : Bool := c == '\r' || c == '\n'

/-- Strip a literal off the front of a character list, returning the remainder
on success. -/
def stripLit : List Char → List Char → Option (List Char)
  | [], l => some l
  | _ :: _, [] => none
  | p :: ps, c :: cs => if c == p then stripLit ps cs else none

/-- Characters up to and including the first right brace, together with the
remainder.  This is the lazy part of the server-block regex: the match ends at
the nearest right brace, not at a balanced one. -/
def takeToBrace : List Char → Option (List Char × List Char)
  | [] => none
  | c :: cs =>
    if c == braceR then some ([c], cs)
    else
      match takeToBrace cs with
      | some (m, rest) => some (c :: m, rest)
      | none => none

/-- One attempted match of the server-block regex at the current position:
the literal server, then greedy whitespace, then a left brace, then the lazy
body ending at the first right brace.  Returns the matched span and the
remainder of the input. -/
def matchServerAt (l : List Char) : Option (List Char × List Char) :=
  match stripLit "server".data l with
  | none => none
  | some r1 =>
    match r1.dropWhile isWsChar with
    | [] => none
    | c :: cs =>
      if c == braceL then
        match takeToBrace cs with
        | some (body, rest) => some ("server".data ++ r1.takeWhile isWsChar ++ c :: body, rest)
        | none => none
      else none

/-- Global scan of the server-block regex with the lastIndex position carried
along, as String.prototype.match does with the g flag: on a match, scanning
resumes after the match; otherwise the start position advances by one.  The
fuel argument is an upper bound on the number of scan steps; every step
consumes at least one character, so fuel equal to the input length suffices
(serverMatchesAux_fuel below). -/
def serverMatchesAux : Nat → List Char → Nat → List (Nat × List Char)
  | 0, _, _ => []
  | fuel + 1, l, pos =>
    match matchServerAt l with
    | some (m, rest) => (pos, m) :: serverMatchesAux fuel rest (pos + m.length)
    | none =>
      match l with
      | [] => []
      | _ :: cs => serverMatchesAux fuel cs (pos + 1)

/-- All matches of the server-block regex over the input, each with the
position where it starts. -/
def serverMatches (l : List Char) : List (Nat × List Char) :=
  serverMatchesAux l.length l 0

/-- JavaScript String.prototype.trim on the modelled whitespace class. -/
def trimChars (l : List Char) : List Char :=
  ((l.dropWhile isWsChar).reverse.dropWhile isWsChar).reverse

/-- Characters strictly before the first semicolon, or none when no semicolon
occurs. -/
def beforeSemi : List Char → Option (List Char)
  | [] => none
  | c :: cs =>
    if c == ';' then some []
    else (beforeSemi cs).map (c :: ·)

/-- One attempted match, at the current position, of a directive regex of the
shape: key, whitespace plus, capture of non-semicolon plus, semicolon.  With
the greedy backtracking of the source pattern, the attempt succeeds exactly
when the key is followed by a whitespace character and the first semicolon
after the key leaves at least two characters between key and semicolon; the
trimmed capture then equals the trim of everything strictly between the first
of those characters and the semicolon. -/
def dirValAt (key l : List Char) : Option (List Char) :=
  match stripLit key l with
  | none => none
  | some rest =>
    match rest with
    | [] => none
    | r :: _ =>
      if isWsChar r then
        match beforeSemi rest with
        | some pre => if 2 ≤ pre.length then some (trimChars (pre.drop 1)) else none
        | none => none
      else none

/-- First match of a directive regex over the block, scanning start positions
left to right as RegExp.prototype.exec does without the g flag. -/
def findDirVal (key : List Char) : List Char → Option (List Char)
  | [] => none
  | c :: cs =>
    match dirValAt key (c :: cs) with
    | some v => some v
    | none => findDirVal key cs

/-- One attempted match of the proxy_pass regex at the current position:
proxy_pass, whitespace plus, the literal http://localhost:, a maximal nonempty
digit run, then a semicolon. -/
def proxyValAt (l : List Char) : Option (List Char) :=
  match stripLit "proxy_pass".data l with
  | none => none
  | some rest =>
    match rest with
    | [] => none
    | r :: _ =>
      if isWsChar r then
        match stripLit "http://localhost:".data (rest.dropWhile isWsChar) with
        | none => none
        | some r3 =>
          match r3.takeWhile Char.isDigit with
          | [] => none
          | d :: ds =>
            match r3.dropWhile Char.isDigit with
            | c2 :: _ => if c2 == ';' then some (d :: ds) else none
            | [] => none
      else none

/-- First match of the proxy_pass regex over the block. -/
def findProxyVal : List Char → Option (List Char)
  | [] => none
  | c :: cs =>
    match proxyValAt (c :: cs) with
    | some v => some v
    | none => findProxyVal cs

/-- Parsed server-block record, interface NginxServerConfig of the source. -/
structure NginxServerConfig where
  server_name : String
  proxy_pass_port : String
  client_max_body_size : String
  raw_block : String
deriving DecidableEq

/-- Per-block record construction of parseNginxConfig: a block is emitted only
when both the server_name and the proxy_pass regex match; the
client_max_body_size value defaults to the sentinel N/A. -/
def mkRecord (block : List Char) : Option NginxServerConfig :=
  match findDirVal "server_name".data block, findProxyVal block with
  | some sn, some pp =>
    some ⟨String.mk sn, String.mk (trimChars pp),
      (match findDirVal "client_max_body_size".data block with
       | some v => String.mk v
       | none => "N/A"),
      String.mk block⟩
  | _, _ => none

/-- parseNginxConfig of the source: all lazy server-block regex matches, each
turned into a record when its required directives match. -/
def parseNginxConfig (content : String) : List NginxServerConfig :=
  ((serverMatches content.data).map Prod.snd).filterMap mkRecord

/-- The parse together with the start position of each emitted record, for
stating span facts; the source drops the positions (String.prototype.match
with the g flag returns only the matched strings). -/
def parseWithPos (content : String) : List (Nat × NginxServerConfig) :=
  (serverMatches content.data).filterMap
    (fun pm => (mkRecord pm.2).map (fun r => (pm.1, r)))

/-- BASE_DOMAIN constant of the source. -/
def BASE_DOMAIN : String := "iiitkota.ac.in"

/-- createNginxServerBlock of the source, transcribed byte for byte from the
template literal (braces written as hex escapes). -/
def createNginxServerBlock (subdomain port clientMaxBodySize : String) : String :=
  "\n# Service: " ++ subdomain ++ "." ++ BASE_DOMAIN ++ "\nserver \x7b\n    listen 443 ssl http2;\n    listen [::]:443 ssl http2;\n    server_name " ++ subdomain ++ "." ++ BASE_DOMAIN ++ ";\n\n    include snippets/ssl-cname-iiitkota.conf;\n    client_max_body_size " ++ clientMaxBodySize ++ ";\n\n    brotli on;\n    brotli_comp_level 6;\n    brotli_types text/plain text/css application/json application/javascript application/x-javascript text/xml application/xml application/xml+rss text/javascript image/svg+xml;\n\n    if ($http_upgrade = \"websocket\") \x7b\n        return 403;\n    \x7d\n\n    location / \x7b\n        proxy_pass http://localhost:" ++ port ++ ";\n        proxy_set_header Host $host;\n        proxy_set_header X-Real-IP $remote_addr;\n        proxy_set_header X-Forwarded-For $proxy_add_x_forwarded_for;\n        proxy_set_header X-Forwarded-Proto $scheme;\n    \x7d\n\x7d"

/-- Whether the second list starts with the first. -/
def hasPrefixList : List Char → List Char → Bool
  | [], _ => true
  | _ :: _, [] => false
  | p :: ps, c :: cs => c == p && hasPrefixList ps cs

/-- JavaScript String.prototype.replace with a string pattern: replace the
first occurrence only; the input is returned unchanged when the pattern does
not occur.  The replacement strings used by the source contain no special
dollar sequences, so the replacement is literal. -/
def replaceFirst (pat rep : List Char) : List Char → List Char
  | [] => if hasPrefixList pat [] then rep else []
  | c :: cs =>
    if hasPrefixList pat (c :: cs) then rep ++ (c :: cs).drop pat.length
    else c :: replaceFirst pat rep cs

/-- Whether the second list occurs inside the first as a contiguous run. -/
def containsSub : List Char → List Char → Bool
  | l, sub =>
    hasPrefixList sub l ||
      match l with
      | [] => false
      | _ :: cs => containsSub cs sub

/-- Index of the last line terminator inside a character list, if any. -/
def lastIdxOfTerm : List Char → Option Nat
  | [] => none
  | c :: cs =>
    match lastIdxOfTerm cs with
    | some j => some (j + 1)
    | none => if isTermChar c then some 0 else none

/-- Length of the match of the blank-line regex (caret, whitespace star, one
line terminator, multiline) at a line start, if it matches there: the greedy
whitespace run backtracks to end on the last line terminator inside the
maximal whitespace run. -/
def blankMatchLen (l : List Char) : Option Nat :=
  match lastIdxOfTerm (l.takeWhile isWsChar) with
  | some j => some (j + 1)
  | none => none

/-- Characters up to and including the first line terminator (the whole list
when no terminator occurs): one source line, as the multiline caret anchor
sees it. -/
def takeThruTerm : List Char → List Char
  | [] => []
  | c :: cs => if isTermChar c then [c] else c :: takeThruTerm cs

/-- Global replacement of the blank-line regex by the empty string, scanning
line starts left to right.  Every step consumes at least one character, so
fuel equal to the input length suffices. -/
def collapseCharsAux : Nat → List Char → List Char
  | 0, l => l
  | fuel + 1, l =>
    match l with
    | [] => []
    | c :: cs =>
      match blankMatchLen (c :: cs) with
      | some n => collapseCharsAux fuel ((c :: cs).drop n)
      | none =>
        takeThruTerm (c :: cs) ++
          collapseCharsAux fuel ((c :: cs).drop (takeThruTerm (c :: cs)).length)

/-- The blank-line collapsing replace of the source removal branch. -/
def collapseChars (l : List Char) : List Char := collapseCharsAux l.length l

/-- String wrapper for trimChars. -/
def jsTrim (s : String) : String := String.mk (trimChars s.data)

/-- String wrapper for replaceFirst. -/
def jsReplaceFirst (s pat rep : String) : String :=
  String.mk (replaceFirst pat.data rep.data s.data)

/-- String wrapper for collapseChars. -/
def collapseBlankStarts (s : String) : String := String.mk (collapseChars s.data)

/-- Reading the configuration file in the /start-compose handler: a missing
file is read as empty content. -/
def readNginxContent : Option String → String
  | some s => s
  | none => ""

/-- parsedServers.find on the proxy port, the correlation step of the
reconciler. -/
def findBlockByPort (servers : List NginxServerConfig) (port : String) :
    Option NginxServerConfig :=
  servers.find? (fun s => s.proxy_pass_port == port)

/-- Result of the reconciler: the new file content and the changed flag
(promptNginxReload in the source). -/
structure ReconcileResult where
  newContent : String
  changed : Bool
deriving DecidableEq

/-- The Nginx reconciliation logic of the /start-compose handler.  Option
arguments model absent or empty (falsy) JavaScript values: oldHostPort is
oldConfig.hostPort, domain is userConfig.domain, hostPort is
finalConfig.hostPort, clientMaxBodySize is userConfig.clientMaxBodySize with
the source default 10M. -/
def reconcileNginx (nginxContent : String)
    (oldHostPort domain hostPort clientMaxBodySize : Option String) :
    ReconcileResult :=
  let blockToReplace :=
    match oldHostPort with
    | some p => findBlockByPort (parseNginxConfig nginxContent) p
    | none => none
  match domain, hostPort with
  | some d, some hp =>
    let newBlock := createNginxServerBlock d hp (clientMaxBodySize.getD "10M")
    match blockToReplace with
    | some b => ⟨jsReplaceFirst nginxContent b.raw_block newBlock, true⟩
    | none => ⟨jsTrim (jsTrim nginxContent ++ "\n\n" ++ newBlock), true⟩
  | _, _ =>
    match blockToReplace with
    | some b => ⟨collapseBlankStarts (jsReplaceFirst nginxContent b.raw_block ""), true⟩
    | none => ⟨nginxContent, false⟩

/-- Exit code and captured output of a child process, supplied as an oracle
to the pipeline model. -/
structure ProcResult where
  exitCode : Nat
  stdoutText : String
  stderrText : String
deriving DecidableEq

/-- Outcome reported by the update-config-stream handler, following the
ApplyResult taxonomy of the specification: pathMissing is the early error for
a missing target file, fatalBackup the caught exception when the backup copy
fails, rejected the failed-test branch (backup restored), reloadFailed the
failed-reload branch (no restore), applied the success branch. -/
inductive ApplyOutcome where
  | pathMissing
  | fatalBackup
  | rejected (diag : String)
  | reloadFailed (diag : String)
  | applied
deriving DecidableEq

/-- File system events on the managed configuration file and its backup
directory, in execution order. -/
inductive FsEvent where
  | backupCopy (content : String)
  | writeConfig (content : String)
  | restoreCopy (content : String)
deriving DecidableEq

/-- Observable result of one run of the update-config-stream handler. -/
structure PipelineRun where
  outcome : ApplyOutcome
  fileContent : Option String
  events : List FsEvent
deriving DecidableEq

/-- Diagnostic text captured on a failed test, testStderr or else testStdout
as in the source (JavaScript or-else on strings: empty is falsy). -/
def capturedTestDiag (t : ProcResult) : String :=
  if t.stderrText ≠ "" then t.stderrText else t.stdoutText

/-- The update-config-stream apply pipeline over explicit state: file is the
current content of the target path (none when the file is missing), backupOk
tells whether the backup copy succeeds, test and reload are the two
subprocess results.  Steps in source order: existence check, backup copy,
write of the new content, nginx -t, then either restore from backup
(rejected) or reload (applied or reloadFailed, never restored). -/
def applyPipeline (file : Option String) (newContent : String) (backupOk : Bool)
    (test reload : ProcResult) : PipelineRun :=
  match file with
  | none => ⟨.pathMissing, none, []⟩
  | some pre =>
    if backupOk then
      if test.exitCode ≠ 0 then
        ⟨.rejected (capturedTestDiag test), some pre,
          [.backupCopy pre, .writeConfig newContent, .restoreCopy pre]⟩
      else if reload.exitCode ≠ 0 then
        ⟨.reloadFailed reload.stderrText, some newContent,
          [.backupCopy pre, .writeConfig newContent]⟩
      else
        ⟨.applied, some newContent,
          [.backupCopy pre, .writeConfig newContent]⟩
    else ⟨.fatalBackup, some pre, []⟩

/-- Whether every write to the target file (including a restore copy, which
also overwrites it) is preceded by a completed backup copy. -/
def writesHaveBackupFrom (seenBackup : Bool) : List FsEvent → Bool
  | [] => true
  | .backupCopy _ :: es => writesHaveBackupFrom true es
  | .writeConfig _ :: es => seenBackup && writesHaveBackupFrom seenBackup es
  | .restoreCopy _ :: es => seenBackup && writesHaveBackupFrom seenBackup es

/-- Backup-before-write property of an event list. -/
def writesHavePriorBackup (evs : List FsEvent) : Bool :=
  writesHaveBackupFrom false evs

/-- File system events of the Nginx section of the /start-compose handler:
when the reconciler reports a change, the handler writes the new content to
the managed configuration file directly (writeFileSync at line 1238), with no
backup step. -/
def startComposeNginxTrace (nginxContent : String)
    (oldHostPort domain hostPort clientMaxBodySize : Option String) :
    List FsEvent :=
  let r := reconcileNginx nginxContent oldHostPort domain hostPort clientMaxBodySize
  if r.changed then [.writeConfig r.newContent] else []

/-- Concrete input for the nested-brace claims: one server block containing a
location sub-block with its own braces. -/
def cNested : String :=
  "server \x7b\n    server_name app.example.org;\n    proxy_pass http://localhost:3000;\n    location / \x7b\n        return 404;\n    \x7d\n\x7d\n"

/-- The span the lazy regex actually matches on cNested: it stops at the
closing brace of the location sub-block. -/
def cNestedRaw : String :=
  "server \x7b\n    server_name app.example.org;\n    proxy_pass http://localhost:3000;\n    location / \x7b\n        return 404;\n    \x7d"

/-- The brace-balanced outer block of cNested, which the claim says the
record should span. -/
def cNestedOuter : String :=
  "server \x7b\n    server_name app.example.org;\n    proxy_pass http://localhost:3000;\n    location / \x7b\n        return 404;\n    \x7d\n\x7d"

/-- The record the parser emits on cNested. -/
def cNestedRec : NginxServerConfig :=
  ⟨"app.example.org", "3000", "N/A", cNestedRaw⟩

/-- Flat server block bound to port 8080 (no inner braces, so the lazy match
covers the whole block). -/
def rawA : String :=
  "server \x7b\nserver_name a.iiitkota.ac.in;\nproxy_pass http://localhost:8080;\n\x7d"

/-- Flat server block bound to port 9090. -/
def rawB : String :=
  "server \x7b\nserver_name b.iiitkota.ac.in;\nproxy_pass http://localhost:9090;\n\x7d"

/-- Two-block configuration file: the 8080 block, a blank line, the 9090
block. -/
def cTwoBlocks : String := rawA ++ "\n\n" ++ rawB

/-- Record parsed for rawA inside cTwoBlocks. -/
def recA : NginxServerConfig := ⟨"a.iiitkota.ac.in", "8080", "N/A", rawA⟩

/-- Record parsed for rawB inside cTwoBlocks. -/
def recB : NginxServerConfig := ⟨"b.iiitkota.ac.in", "9090", "N/A", rawB⟩

/-- Flat 8080 block used twice in the adversarial file: once embedded inside
another block and once on its own. -/
def rawB2 : String :=
  "server \x7b\nserver_name a.iiitkota.ac.in;\nproxy_pass http://localhost:8080;\n\x7d"

/-- Adversarial 9090 block that ends, verbatim, with the text of rawB2: the
lazy regex reads it as a single block (its only right brace is the final one)
whose first proxy_pass names port 9090. -/
def rawXAlias : String :=
  "server \x7b\nserver_name b.iiitkota.ac.in;\nproxy_pass http://localhost:9090;\n" ++ rawB2

/-- Adversarial two-block file: the aliased 9090 block followed by the 8080
block whose raw text also occurs inside the 9090 block. -/
def cAlias : String := rawXAlias ++ "\n" ++ rawB2

/-- Stripping a literal decomposes the input. -/
theorem stripLit_eq : ∀ {p l r : List Char}, stripLit p l = some r → l = p ++ r := by
  intro p
  induction p with
  | nil => intro l r h; simp [stripLit] at h; simp [h]
  | cons a as ih =>
    intro l r h
    cases l with
    | nil => simp [stripLit] at h
    | cons c cs =>
      simp only [stripLit] at h
      by_cases hc : c == a
      · rw [if_pos hc] at h
        have := ih h
        simp [this, List.cons_append, eq_of_beq hc]
      · rw [if_neg hc] at h
        exact absurd h (by simp)

/-- takeToBrace decomposes the input and its match ends at its only right
brace. -/
theorem takeToBrace_eq : ∀ {l m rest : List Char}, takeToBrace l = some (m, rest) →
    l = m ++ rest ∧ ∃ m2, m = m2 ++ [braceR] ∧ braceR ∉ m2 := by
  intro l
  induction l with
  | nil => intro m rest h; simp [takeToBrace] at h
  | cons c cs ih =>
    intro m rest h
    simp only [takeToBrace] at h
    by_cases hc : c == braceR
    · rw [if_pos hc] at h
      simp only [Option.some.injEq, Prod.mk.injEq] at h
      obtain ⟨hm, hrest⟩ := h
      subst hm; subst hrest
      exact ⟨rfl, [], by simp [eq_of_beq hc], by simp⟩
    · rw [if_neg hc] at h
      cases h4 : takeToBrace cs with
      | none => rw [h4] at h; exact absurd h (by simp)
      | some pr =>
        obtain ⟨m0, rest0⟩ := pr
        rw [h4] at h
        simp only [Option.some.injEq, Prod.mk.injEq] at h
        obtain ⟨hm, hrest⟩ := h
        subst hm; subst hrest
        obtain ⟨hcs, m2, hm2, hni⟩ := ih h4
        refine ⟨by simp [hcs], c :: m2, by simp [hm2], ?_⟩
        intro hmem
        rcases List.mem_cons.mp hmem with h5 | h5
        · exact hc (by simp [h5])
        · exact hni h5

/-- The matched span of the server-block regex decomposes the input, is
nonempty, and ends at its only right brace. -/
theorem matchServerAt_eq {l m rest : List Char} (h : matchServerAt l = some (m, rest)) :
    l = m ++ rest ∧ 0 < m.length ∧ ∃ m2, m = m2 ++ [braceR] ∧ braceR ∉ m2 := by
  unfold matchServerAt at h
  split at h
  · exact absurd h (by simp)
  rename_i r1 h1
  split at h
  · exact absurd h (by simp)
  rename_i c cs h2
  split at h
  case isFalse => exact absurd h (by simp)
  rename_i h3
  split at h
  case h_2 => exact absurd h (by simp)
  rename_i body rest0 h4
  simp only [Option.some.injEq, Prod.mk.injEq] at h
  obtain ⟨hm, hrest⟩ := h
  subst hm; subst hrest
  have hsl := stripLit_eq h1
  have htw : r1.takeWhile isWsChar ++ (c :: cs) = r1 := by
    rw [← h2]; exact List.takeWhile_append_dropWhile isWsChar r1
  obtain ⟨hcs, m2, hm2, hni⟩ := takeToBrace_eq h4
  have h6 : r1 = r1.takeWhile isWsChar ++ c :: (body ++ rest0) := by
    rw [← hcs]; exact htw.symm
  refine ⟨?_, by simp, "server".data ++ r1.takeWhile isWsChar ++ c :: m2, ?_, ?_⟩
  · calc l = "server".data ++ r1 := hsl
      _ = "server".data ++ (r1.takeWhile isWsChar ++ c :: (body ++ rest0)) :=
        congrArg (fun t => "server".data ++ t) h6
      _ = ("server".data ++ r1.takeWhile isWsChar ++ c :: body) ++ rest0 := by
        simp [List.append_assoc]
  · rw [hm2]; simp [List.append_assoc]
  · intro hmem
    simp only [List.mem_append, List.mem_cons] at hmem
    rcases hmem with (h5 | h5) | h5 | h5
    · revert h5; decide
    · exact absurd (List.mem_takeWhile_imp h5) (by decide)
    · exact absurd (eq_of_beq h3 ▸ h5) (by decide)
    · exact hni h5

/-- The scan of the empty input yields no matches, at any fuel. -/
theorem serverMatchesAux_nil (fuel pos : Nat) : serverMatchesAux fuel [] pos = [] := by
  cases fuel <;> rfl

/-- Any fuel at least the input length gives the same scan result, so the
choice fuel = length in serverMatches is canonical. -/
theorem serverMatchesAux_fuel : ∀ {fuel fuel2 : Nat} {l : List Char} {pos : Nat},
    l.length ≤ fuel → l.length ≤ fuel2 →
    serverMatchesAux fuel l pos = serverMatchesAux fuel2 l pos := by
  intro fuel
  induction fuel with
  | zero =>
    intro fuel2 l pos h h2
    have : l = [] := List.eq_nil_of_length_eq_zero (Nat.le_zero.mp h)
    subst this
    rw [serverMatchesAux_nil, serverMatchesAux_nil]
  | succ fuel ih =>
    intro fuel2 l pos h h2
    cases fuel2 with
    | zero =>
      have : l = [] := List.eq_nil_of_length_eq_zero (Nat.le_zero.mp h2)
      subst this
      rw [serverMatchesAux_nil, serverMatchesAux_nil]
    | succ fuel2 =>
      simp only [serverMatchesAux]
      cases hm : matchServerAt l with
      | some pr =>
        obtain ⟨m, rest⟩ := pr
        obtain ⟨hl, hpos, -⟩ := matchServerAt_eq hm
        have hrest : rest.length ≤ fuel := by
          subst hl; simp [List.length_append] at h; omega
        have hrest2 : rest.length ≤ fuel2 := by
          subst hl; simp [List.length_append] at h2; omega
        show (pos, m) :: serverMatchesAux fuel rest (pos + m.length)
            = (pos, m) :: serverMatchesAux fuel2 rest (pos + m.length)
        rw [ih hrest hrest2]
      | none =>
        cases l with
        | nil => rfl
        | cons c cs =>
          show serverMatchesAux fuel cs (pos + 1) = serverMatchesAux fuel2 cs (pos + 1)
          simp only [List.length_cons] at h h2
          exact ih (by omega) (by omega)

/-- Take of the left summand. -/
theorem listTakeApp (l1 l2 : List Char) : (l1 ++ l2).take l1.length = l1 := by
  induction l1 with
  | nil => simp
  | cons a as ih => simp [ih]

/-- Drop past the left summand. -/
theorem listDropApp (l1 l2 : List Char) (i : Nat) :
    (l1 ++ l2).drop (l1.length + i) = l2.drop i := by
  induction l1 with
  | nil => simp
  | cons a as ih =>
    simp only [List.cons_append, List.length_cons, Nat.succ_add, List.drop_succ_cons]
    exact ih

/-- Every match the scan returns starts at or after the carried position, fits
inside the input, equals the span of the input at its position, and ends at
its only right brace. -/
theorem serverMatchesAux_mem : ∀ {fuel : Nat} {l : List Char} {pos p : Nat} {m : List Char},
    (p, m) ∈ serverMatchesAux fuel l pos →
    ∃ d, p = pos + d ∧ d + m.length ≤ l.length ∧ m = (l.drop d).take m.length ∧
      ∃ m2, m = m2 ++ [braceR] ∧ braceR ∉ m2 := by
  intro fuel
  induction fuel with
  | zero => intro l pos p m h; simp [serverMatchesAux] at h
  | succ fuel ih =>
    intro l pos p m h
    simp only [serverMatchesAux] at h
    cases hm : matchServerAt l with
    | some pr =>
      obtain ⟨m0, rest⟩ := pr
      rw [hm] at h
      obtain ⟨hl, hpos, hbr0⟩ := matchServerAt_eq hm
      rcases List.mem_cons.mp h with h5 | h5
      · simp only [Prod.mk.injEq] at h5
        obtain ⟨hp, hmm⟩ := h5
        subst hp; subst hmm
        refine ⟨0, by simp, ?_, ?_, hbr0⟩
        · subst hl; simp
        · subst hl; simp [listTakeApp]
      · obtain ⟨d, hp, hbound, hslice, hbr⟩ := ih h5
        refine ⟨m0.length + d, by omega, ?_, ?_, hbr⟩
        · subst hl; simp [List.length_append]; omega
        · subst hl; rw [listDropApp]; exact hslice
    | none =>
      rw [hm] at h
      cases l with
      | nil => simp at h
      | cons c cs =>
        obtain ⟨d, hp, hbound, hslice, hbr⟩ := ih h
        refine ⟨1 + d, by omega, ?_, ?_, hbr⟩
        · simp; omega
        · have hd : 1 + d = d + 1 := Nat.add_comm 1 d
          rw [hd, List.drop_succ_cons]
          exact hslice

/-- Matches are returned in scan order: each one ends at or before the start
of the next (spans are disjoint and ordered). -/
theorem serverMatchesAux_pairwise : ∀ (fuel : Nat) (l : List Char) (pos : Nat),
    List.Pairwise (fun a b : Nat × List Char => a.1 + a.2.length ≤ b.1)
      (serverMatchesAux fuel l pos) := by
  intro fuel
  induction fuel with
  | zero => intro l pos; simp [serverMatchesAux]
  | succ fuel ih =>
    intro l pos
    simp only [serverMatchesAux]
    cases hm : matchServerAt l with
    | some pr =>
      obtain ⟨m, rest⟩ := pr
      refine List.pairwise_cons.mpr ⟨?_, ih rest (pos + m.length)⟩
      intro b hb
      obtain ⟨p2, m2⟩ := b
      obtain ⟨d, hp, -, -, -⟩ := serverMatchesAux_mem hb
      show pos + m.length ≤ p2
      omega
    | none =>
      cases l with
      | nil => simp
      | cons c cs => exact ih cs (pos + 1)

/-- Pairwise relations survive filterMap when the function transports the
relation. -/
theorem pairwise_filterMap_rel {α β : Type} {R : α → α → Prop} {S : β → β → Prop}
    (f : α → Option β)
    (H : ∀ a a2 b b2, R a a2 → f a = some b → f a2 = some b2 → S b b2) :
    ∀ {l : List α}, List.Pairwise R l → List.Pairwise S (l.filterMap f) := by
  intro l
  induction l with
  | nil => intro h; simp
  | cons a l ih =>
    intro h
    obtain ⟨ha, hl⟩ := List.pairwise_cons.mp h
    cases hf : f a with
    | none => rw [List.filterMap_cons_none hf]; exact ih hl
    | some b =>
      rw [List.filterMap_cons_some hf]
      refine List.pairwise_cons.mpr ⟨?_, ih hl⟩
      intro b2 hb2
      obtain ⟨a2, ha2, hfa2⟩ := List.mem_filterMap.mp hb2
      exact H a a2 b b2 (ha a2 ha2) hf hfa2

/-- A record keeps the matched span verbatim in its raw_block field. -/
theorem mkRecord_raw : ∀ {m : List Char} {r : NginxServerConfig},
    mkRecord m = some r → r.raw_block = String.mk m := by
  intro m r h
  unfold mkRecord at h
  split at h
  · simp only [Option.some.injEq] at h
    rw [← h]
  · exact absurd h (by simp)

/-- The parse is the position-annotated parse with the positions dropped. -/
theorem parse_map_snd (content : String) :
    parseNginxConfig content = (parseWithPos content).map Prod.snd := by
  unfold parseNginxConfig parseWithPos
  generalize serverMatches content.data = l
  induction l with
  | nil => simp
  | cons a l ih =>
    cases hf : mkRecord a.2 with
    | none => simp [List.filterMap_cons, hf, ih]
    | some r => simp [List.filterMap_cons, hf, ih]

/-- Membership in the position-annotated parse comes from a scan match whose
record construction succeeds. -/
theorem parseWithPos_mem {content : String} {p : Nat} {r : NginxServerConfig}
    (h : (p, r) ∈ parseWithPos content) :
    ∃ m, (p, m) ∈ serverMatches content.data ∧ mkRecord m = some r := by
  unfold parseWithPos at h
  obtain ⟨pm, hpm, hmap⟩ := List.mem_filterMap.mp h
  obtain ⟨r2, hr2, heq⟩ := Option.map_eq_some'.mp hmap
  simp only [Prod.mk.injEq] at heq
  obtain ⟨h1, h2⟩ := heq
  refine ⟨pm.2, ?_, ?_⟩
  · rw [← h1]; exact hpm
  · rw [h2] at hr2; exact hr2

/-- A take of a drop is an infix. -/
theorem slice_infix {c m : List Char} {d : Nat}
    (hm : m = (c.drop d).take m.length) : List.IsInfix m c := by
  obtain ⟨n, hn⟩ : ∃ n, m.length = n := ⟨m.length, rfl⟩
  rw [hn] at hm
  refine ⟨c.take d, (c.drop d).drop n, ?_⟩
  rw [List.append_assoc, hm, List.take_append_drop, List.take_append_drop]

/-- The blank-line regex match has positive length. -/
theorem blankMatchLen_pos {l : List Char} {n : Nat} (h : blankMatchLen l = some n) :
    1 ≤ n := by
  unfold blankMatchLen at h
  split at h
  · simp only [Option.some.injEq] at h; omega
  · exact absurd h (by simp)

/-- One line is never empty on a nonempty input. -/
theorem takeThruTerm_pos (c : Char) (cs : List Char) :
    1 ≤ (takeThruTerm (c :: cs)).length := by
  unfold takeThruTerm
  split <;> simp

/-- The blank-line collapse of the empty input is empty, at any fuel. -/
theorem collapseCharsAux_nil (fuel : Nat) : collapseCharsAux fuel [] = [] := by
  cases fuel <;> rfl

/-- Any fuel at least the input length gives the same collapse result, so the
choice fuel = length in collapseChars is canonical. -/
theorem collapseCharsAux_fuel : ∀ {fuel fuel2 : Nat} {l : List Char},
    l.length ≤ fuel → l.length ≤ fuel2 →
    collapseCharsAux fuel l = collapseCharsAux fuel2 l := by
  intro fuel
  induction fuel with
  | zero =>
    intro fuel2 l h h2
    have : l = [] := List.eq_nil_of_length_eq_zero (Nat.le_zero.mp h)
    subst this
    rw [collapseCharsAux_nil, collapseCharsAux_nil]
  | succ fuel ih =>
    intro fuel2 l h h2
    cases fuel2 with
    | zero =>
      have : l = [] := List.eq_nil_of_length_eq_zero (Nat.le_zero.mp h2)
      subst this
      rw [collapseCharsAux_nil, collapseCharsAux_nil]
    | succ fuel2 =>
      cases l with
      | nil => rw [collapseCharsAux_nil, collapseCharsAux_nil]
      | cons c cs =>
        simp only [collapseCharsAux]
        cases hb : blankMatchLen (c :: cs) with
        | some n =>
          have hn := blankMatchLen_pos hb
          have hlen : ((c :: cs).drop n).length ≤ fuel := by
            simp only [List.length_drop, List.length_cons] at *
            omega
          have hlen2 : ((c :: cs).drop n).length ≤ fuel2 := by
            simp only [List.length_drop, List.length_cons] at *
            omega
          exact ih hlen hlen2
        | none =>
          have ht := takeThruTerm_pos c cs
          have hlen : ((c :: cs).drop (takeThruTerm (c :: cs)).length).length ≤ fuel := by
            simp only [List.length_drop, List.length_cons] at *
            omega
          have hlen2 : ((c :: cs).drop (takeThruTerm (c :: cs)).length).length ≤ fuel2 := by
            simp only [List.length_drop, List.length_cons] at *
            omega
          rw [ih hlen hlen2]

/-- C1: for every pre-call file content and submitted newContent, when the
syntax-test subprocess exits non-zero the pipeline reports the rejected
outcome carrying the captured diagnostic text (stderr, or stdout when stderr
is empty), and the backup is restored, so the target file content after the
call is byte-identical to the pre-call content. -/
theorem update_config_rejected_restores (pre newC : String) (test reload : ProcResult)
    (h : test.exitCode ≠ 0) :
    (applyPipeline (some pre) newC true test reload).outcome
        = ApplyOutcome.rejected (capturedTestDiag test) ∧
    (applyPipeline (some pre) newC true test reload).fileContent = some pre := by
  simp [applyPipeline, h]

/-- Witness for C1 at a concrete failing test result. -/
theorem update_config_rejected_restores_witness :
    (applyPipeline (some "old config") "new \x7b" true ⟨1, "out", "bad syntax"⟩ ⟨0, "", ""⟩).outcome
        = ApplyOutcome.rejected (capturedTestDiag ⟨1, "out", "bad syntax"⟩) ∧
    (applyPipeline (some "old config") "new \x7b" true ⟨1, "out", "bad syntax"⟩ ⟨0, "", ""⟩).fileContent
        = some "old config" :=
  update_config_rejected_restores "old config" "new \x7b" ⟨1, "out", "bad syntax"⟩ ⟨0, "", ""⟩
    (by decide)

/-- C2 counterexample: the /start-compose handler is an operation of this
subsystem that mutates the managed configuration file, and on this concrete
input it performs a write with no backup event anywhere in its trace, so the
claim that every mutating operation backs up before any write is false on the
code. -/
theorem start_compose_writes_without_backup :
    startComposeNginxTrace "" none (some "app") (some "8080") (some "10M")
        = [FsEvent.writeConfig
            (reconcileNginx "" none (some "app") (some "8080") (some "10M")).newContent] ∧
    writesHavePriorBackup
        (startComposeNginxTrace "" none (some "app") (some "8080") (some "10M")) = false := by
  decide

/-- C2 (amended): in the update-config-stream apply pipeline every write to
the target file, the restore copy included, is preceded by a completed backup
copy, and when the backup copy fails the operation performs no file system
event at all, in particular no write; the /start-compose reconciliation path,
by contrast, writes the file without a backup (see the counterexample). -/
theorem apply_pipeline_backup_precedes_every_write (file : Option String)
    (newC : String) (backupOk : Bool) (test reload : ProcResult) :
    writesHavePriorBackup (applyPipeline file newC backupOk test reload).events = true ∧
    (applyPipeline file newC false test reload).events = [] := by
  constructor
  · cases file with
    | none => rfl
    | some pre =>
      cases backupOk with
      | false => rfl
      | true =>
        by_cases ht : test.exitCode ≠ 0
        · simp [applyPipeline, ht, writesHavePriorBackup, writesHaveBackupFrom]
        · by_cases hr : reload.exitCode ≠ 0
          · simp [applyPipeline, ht, hr, writesHavePriorBackup, writesHaveBackupFrom]
          · simp [applyPipeline, ht, hr, writesHavePriorBackup, writesHaveBackupFrom]
  · cases file with
    | none => rfl
    | some pre => rfl

/-- C3 counterexample: on an input whose server block contains a nested
location sub-block, the parser emits one record whose rawText is truncated at
the inner closing brace (cNestedRaw), which differs from the brace-balanced
outer block (cNestedOuter), so the claim that rawText spans the balanced
outer block is false on the code. -/
theorem nested_block_raw_text_truncated :
    (parseNginxConfig cNested).map (fun r => r.raw_block) = [cNestedRaw] ∧
    cNestedRaw ≠ cNestedOuter := by
  decide

/-- C3 (amended): for every input, every record the parser emits has a
rawText that extends exactly to the first closing brace after the block
opening: its final character is the only closing brace it contains.  A block
with a nested sub-block is therefore truncated at the first inner closing
brace instead of the balancing one. -/
theorem parse_raw_block_stops_at_first_closing_brace (content : String)
    (r : NginxServerConfig) (h : r ∈ parseNginxConfig content) :
    ∃ m2, r.raw_block.data = m2 ++ [braceR] ∧ braceR ∉ m2 := by
  rw [parse_map_snd] at h
  obtain ⟨pr, hpr, hsnd⟩ := List.mem_map.mp h
  obtain ⟨p, r2⟩ := pr
  obtain ⟨m, hmem, hmk⟩ := parseWithPos_mem hpr
  obtain ⟨-, -, -, -, m2, hm2, hni⟩ := serverMatchesAux_mem hmem
  rw [← hsnd]
  show ∃ mm, r2.raw_block.data = mm ++ [braceR] ∧ braceR ∉ mm
  rw [mkRecord_raw hmk]
  exact ⟨m2, hm2, hni⟩

/-- Witness for the amended C3 at the concrete nested-block input. -/
theorem parse_raw_block_stops_at_first_closing_brace_witness :
    ∃ m2, cNestedRec.raw_block.data = m2 ++ [braceR] ∧ braceR ∉ m2 :=
  parse_raw_block_stops_at_first_closing_brace cNested cNestedRec (by decide)

/-- C4: evaluating the code at the failing input of the round-trip claim.
Reconciling an empty file with desired state subdomain app, port 8080, size
10M marks a change, but parsing the resulting content yields no record at
all, not one record: the rendered block contains an if sub-block whose
closing brace ends the lazy regex match before proxy_pass, so the renderer
output is invisible to the parser. -/
theorem reconcile_empty_add_then_parse_is_empty :
    (reconcileNginx "" none (some "app") (some "8080") (some "10M")).changed = true ∧
    parseNginxConfig
        (reconcileNginx "" none (some "app") (some "8080") (some "10M")).newContent = [] := by
  decide

/-- C5 counterexample: cTwoBlocks parses to exactly the 8080 block (rawA) and
the 9090 block (rawB); the content from which exactly the 8080 block text has
been removed is the blank separator followed by rawB, but the clear operation
produces something else (it also deletes the separating blank lines), so the
claim as stated is false on the code. -/
theorem clear_block_not_pure_deletion :
    (parseNginxConfig cTwoBlocks).map (fun r => (r.proxy_pass_port, r.raw_block))
        = [("8080", rawA), ("9090", rawB)] ∧
    (reconcileNginx cTwoBlocks (some "8080") none none none).newContent ≠ "\n\n" ++ rawB := by
  decide

/-- C5 (amended): clearing the domain of the service on port 8080 in the
two-block file removes the 8080 block text and also collapses the
whitespace-only line prefixes the removal leaves behind; the 9090 block text
survives byte-identical (the result equals rawB exactly), the operation
reports a change, and re-parsing the new content yields exactly one record,
the 9090 one. -/
theorem clear_removes_block_and_collapses :
    (reconcileNginx cTwoBlocks (some "8080") none none none) = ⟨rawB, true⟩ ∧
    parseNginxConfig rawB = [recB] := by
  decide

/-- C6 counterexample: in cAlias the parser returns two records, for ports
9090 and 8080, and the raw text of the 8080 record also occurs embedded
inside the 9090 block; reconciling port 8080 with a new domain replaces the
first occurrence, which lies inside the 9090 block, so after the call the
raw text of the 9090 record no longer occurs anywhere in the file: the claim
that the 9090 block is left byte-identical is false on the code. -/
theorem replace_first_occurrence_corrupts_aliased_block :
    (parseNginxConfig cAlias).map (fun r => (r.proxy_pass_port, r.raw_block))
        = [("9090", rawXAlias), ("8080", rawB2)] ∧
    containsSub
        (reconcileNginx cAlias (some "8080") (some "newapp") (some "8080") (some "10M")).newContent.data
        rawXAlias.data = false := by
  decide

/-- C6 (amended): when the raw text of the 8080 block occurs in the file only
as the parsed block itself, as in the plain two-block file cTwoBlocks,
reconciling port 8080 with a new domain replaces exactly that occurrence:
the result is the rendered block followed by the untouched separator and the
byte-identical 9090 block in its original position, and the change flag is
set. -/
theorem replace_keeps_unrelated_block_in_place :
    (reconcileNginx cTwoBlocks (some "8080") (some "app") (some "8080") (some "10M")).newContent
        = createNginxServerBlock "app" "8080" "10M" ++ "\n\n" ++ rawB ∧
    (reconcileNginx cTwoBlocks (some "8080") (some "app") (some "8080") (some "10M")).changed
        = true := by
  decide

/-- C7: when the syntax test exits zero and the reload exits non-zero, the
pipeline reports the reload-failed outcome with the reload stderr text,
performs no restore (its event trace is exactly backup then write), and the
target file keeps the newly written content. -/
theorem reload_failure_keeps_new_content (pre newC : String) (test reload : ProcResult)
    (h0 : test.exitCode = 0) (h1 : reload.exitCode ≠ 0) :
    (applyPipeline (some pre) newC true test reload).outcome
        = ApplyOutcome.reloadFailed reload.stderrText ∧
    (applyPipeline (some pre) newC true test reload).fileContent = some newC ∧
    (applyPipeline (some pre) newC true test reload).events
        = [FsEvent.backupCopy pre, FsEvent.writeConfig newC] := by
  simp [applyPipeline, h0, h1]

/-- Witness for C7 at concrete subprocess results. -/
theorem reload_failure_keeps_new_content_witness :
    (applyPipeline (some "old config") "new config" true ⟨0, "", ""⟩ ⟨1, "", "job failed"⟩).outcome
        = ApplyOutcome.reloadFailed "job failed" ∧
    (applyPipeline (some "old config") "new config" true ⟨0, "", ""⟩ ⟨1, "", "job failed"⟩).fileContent
        = some "new config" ∧
    (applyPipeline (some "old config") "new config" true ⟨0, "", ""⟩ ⟨1, "", "job failed"⟩).events
        = [FsEvent.backupCopy "old config", FsEvent.writeConfig "new config"] :=
  reload_failure_keeps_new_content "old config" "new config" ⟨0, "", ""⟩ ⟨1, "", "job failed"⟩
    (by decide) (by decide)

/-- C8: the parser is a total function in this embedding; a missing file is
read as empty content, empty content parses to no records, and malformed
text (an unterminated block, or text with no server block at all) parses to
no records rather than failing. -/
theorem parse_total_on_malformed_and_missing :
    readNginxContent none = "" ∧
    parseNginxConfig (readNginxContent none) = [] ∧
    parseNginxConfig "server \x7b\n    server_name broken.example.org;\n" = [] ∧
    parseNginxConfig "not an nginx config at all" = [] := by
  decide

/-- C9: every record the parser returns carries, in its rawText field, an
exact contiguous substring of the input content it was parsed from. -/
theorem parse_raw_block_infix_of_input (content : String) (r : NginxServerConfig)
    (h : r ∈ parseNginxConfig content) :
    List.IsInfix r.raw_block.data content.data := by
  rw [parse_map_snd] at h
  obtain ⟨pr, hpr, hsnd⟩ := List.mem_map.mp h
  obtain ⟨p, r2⟩ := pr
  obtain ⟨m, hmem, hmk⟩ := parseWithPos_mem hpr
  obtain ⟨d, hp, hbound, hslice, -⟩ := serverMatchesAux_mem hmem
  rw [← hsnd]
  show List.IsInfix r2.raw_block.data content.data
  rw [mkRecord_raw hmk]
  exact slice_infix hslice

/-- Witness for C9 at the concrete two-block input and its first record. -/
theorem parse_raw_block_infix_of_input_witness :
    List.IsInfix recA.raw_block.data cTwoBlocks.data :=
  parse_raw_block_infix_of_input cTwoBlocks recA (by decide)

/-- C10: the parse equals the position-annotated parse with positions
dropped; consecutive records in return order satisfy that each span ends at
or before the start of the next (spans are pairwise non-overlapping and
returned in increasing position order); and every record equals the slice of
the input at its recorded position, lying inside the input. -/
theorem parse_spans_disjoint_and_ordered (content : String) :
    parseNginxConfig content = (parseWithPos content).map Prod.snd ∧
    List.Chain' (fun a b : Nat × NginxServerConfig =>
      a.1 + a.2.raw_block.data.length ≤ b.1) (parseWithPos content) ∧
    ∀ p r, (p, r) ∈ parseWithPos content →
      r.raw_block.data = (content.data.drop p).take r.raw_block.data.length ∧
      p + r.raw_block.data.length ≤ content.data.length := by
  refine ⟨parse_map_snd content, ?_, ?_⟩
  · refine List.Pairwise.chain' ?_
    unfold parseWithPos
    refine pairwise_filterMap_rel _ ?_ (serverMatchesAux_pairwise _ _ _)
    intro a a2 b b2 hR hf hf2
    obtain ⟨r, hr, hb⟩ := Option.map_eq_some'.mp hf
    obtain ⟨r2, hr2, hb2⟩ := Option.map_eq_some'.mp hf2
    subst hb; subst hb2
    show a.1 + r.raw_block.data.length ≤ a2.1
    rw [mkRecord_raw hr]
    show a.1 + a.2.length ≤ a2.1
    exact hR
  · intro p r h
    obtain ⟨m, hmem, hmk⟩ := parseWithPos_mem h
    obtain ⟨d, hp, hbound, hslice, -⟩ := serverMatchesAux_mem hmem
    have hpd : p = d := by omega
    subst hpd
    rw [mkRecord_raw hmk]
    refine ⟨hslice, ?_⟩
    show p + m.length ≤ content.data.length
    omega

/-- Witness for C10: the slice clause instantiated at the concrete two-block
input and the record at position zero. -/
theorem parse_spans_disjoint_and_ordered_witness :
    recA.raw_block.data = (cTwoBlocks.data.drop 0).take recA.raw_block.data.length ∧
    0 + recA.raw_block.data.length ≤ cTwoBlocks.data.length :=
  (parse_spans_disjoint_and_ordered cTwoBlocks).2.2 0 recA (by decide)
